import Mathlib

/-!
Verification development for the readest TTS audio-cache and pre-cache
pipeline.  The definitions below are shallow embeddings of the TypeScript
source files:

* cache-key derivation (`generateCacheKey`) and the check endpoint
  (`src/apps/readest-app/src/app/api/tts/vieneu/check/route.ts`);
* the nested cache store of the synthesize route (`isCached`,
  `getCachedAudio`, `cacheAudio`, `updateMetadata`, `migrateCacheFile`);
* the eviction endpoint
  (`src/apps/readest-app/src/app/api/tts/vieneu/stats/route.ts`, `POST`);
* the pre-cache orchestrator's synthesizing loop
  (`src/apps/readest-app/src/services/tts/PreCacheService.ts`).

The file system is modelled as explicit state (maps from path components to
file contents) threaded through each operation; a thrown exception is
modelled as `Option`/`none` together with the state reached before the
throw.  Byte buffers are lists of naturals, JS numbers are `Nat`/`ℤ`/`ℚ`
as appropriate.  The MD5 digest of the `crypto` library is an external
dependency of the code, so the derivation is parameterised by an arbitrary
digest function `md5hex : String → String`; every property proved here
holds for all digest functions.
-/

namespace Readest

/-! ### CacheKey derivation

Embedding of `generateCacheKey` (check/route.ts lines 35-42, identical in
the synthesize route): `text.trim().replace(/\s+/g, ' ')` followed by
`md5(normalized + voice)`. -/

/-- The character class of the JavaScript regex `\s` (also the set stripped
by `String.prototype.trim`): tab, LF, VT, FF, CR, space, NBSP, and the
Unicode space separators, line/paragraph separators and BOM. -/
def isJsWhitespace (c : Char) : Bool :=
  c.toNat = 0x09 || c.toNat = 0x0A || c.toNat = 0x0B || c.toNat = 0x0C ||
  c.toNat = 0x0D || c.toNat = 0x20 || c.toNat = 0xA0 || c.toNat = 0x1680 ||
  (0x2000 ≤ c.toNat && c.toNat ≤ 0x200A) ||
  c.toNat = 0x2028 || c.toNat = 0x2029 || c.toNat = 0x202F ||
  c.toNat = 0x205F || c.toNat = 0x3000 || c.toNat = 0xFEFF

/-- Strip trailing whitespace. -/
def trimRight (l : List Char) : List Char :=
  (l.reverse.dropWhile isJsWhitespace).reverse

/-- `String.prototype.trim` on a character list: strip leading and trailing
whitespace. -/
def jsTrimList (l : List Char) : List Char :=
  trimRight (l.dropWhile isJsWhitespace)

/-- One pass of `replace(/\s+/g, ' ')`: the flag records whether the scanner
is inside a whitespace run (the run was already replaced by one space). -/
def collapseWsGo (inRun : Bool) : List Char → List Char
  | [] => []
  | c :: rest =>
    if isJsWhitespace c then
      if inRun then collapseWsGo true rest
      else ' ' :: collapseWsGo true rest
    else c :: collapseWsGo false rest

/-- `replace(/\s+/g, ' ')`: every maximal whitespace run becomes one space. -/
def collapseWs (l : List Char) : List Char :=
  collapseWsGo false l

/-- The normalisation step of `generateCacheKey`:
`text.trim().replace(/\s+/g, ' ')`. -/
def normalizeText (text : String) : String :=
  String.mk (collapseWs (jsTrimList text.data))

/-- `generateCacheKey(text, voice)`: the digest of the normalised text
directly concatenated with the voice.  `md5hex` is the `crypto` MD5 hex
digest, an external dependency, taken as a parameter. -/
def generateCacheKey (md5hex : String → String) (text voice : String) : String :=
  md5hex (normalizeText text ++ voice)

/-! Canonical word decomposition, used to state "two texts differ only in
whitespace run-length or in leading/trailing whitespace": the two texts
have the same list of maximal non-whitespace runs. -/

/-- Accumulating word splitter: `acc` holds the reversed current word. -/
def wordsGo (acc : List Char) : List Char → List (List Char)
  | [] => if acc.isEmpty then [] else [acc.reverse]
  | c :: rest =>
    if isJsWhitespace c then
      if acc.isEmpty then wordsGo [] rest
      else acc.reverse :: wordsGo [] rest
    else wordsGo (c :: acc) rest

/-- The maximal non-whitespace runs of a string, in order. -/
def wsWords (s : String) : List (List Char) :=
  wordsGo [] s.data

/-- Join words with single spaces: the canonical fully-normalised form. -/
def unwords : List (List Char) → List Char
  | [] => []
  | [w] => w
  | w :: ws => w ++ ' ' :: unwords ws

/-! ### Cache store state

The synthesize route (the unnamed file `src/unnamed/part_001`) addresses
files at four kinds of paths under `CACHE_DIR`:

* `bookKey/voice/cacheKey.mp3` and `bookKey/voice/cacheKey.meta.json`
  (current nested layout, `getCacheFilePath` / `getMetadataFilePath`);
* `cacheKey.mp3` and `cacheKey.meta.json` (legacy flat layout,
  `getLegacyCacheFilePath` / `getLegacyMetadataFilePath`).

The state maps each path to its content when the file exists.  Audio files
hold byte buffers; metadata files hold either valid JSON for a
`CacheMetadata` record or unparsable content (`JSON.parse` throws). -/

/-- The `CacheMetadata` record of the synthesize route. -/
structure CacheMetadata where
  text : String
  voice : String
  size : Nat
  created : String
  lastUsed : String
  useCount : Nat
  bookKey : Option String
deriving DecidableEq, Repr

/-- Content of a metadata file: valid JSON for a `CacheMetadata`, or
corrupt content on which `JSON.parse` throws. -/
inductive MetaFile where
  | corrupt (raw : String)
  | valid (m : CacheMetadata)
deriving DecidableEq, Repr

/-- Byte buffers (`Buffer`). -/
abbrev Bytes := List Nat

/-- The on-disk cache state seen by the synthesize route.  `mkdir` of
parent directories (`ensureCacheDir`) is a no-op in this model: writing a
file creates its location. -/
structure CacheFS where
  nestedAudio : String → String → String → Option Bytes
  nestedMeta : String → String → String → Option MetaFile
  flatAudio : String → Option Bytes
  flatMeta : String → Option MetaFile

/-- Point update of a flat-path map. -/
def upd1 {β : Type} (f : String → Option β) (k : String) (x : Option β) :
    String → Option β :=
  fun k' => if k' = k then x else f k'

/-- Point update of a nested-path map. -/
def upd3 {β : Type} (f : String → String → String → Option β)
    (b v k : String) (x : Option β) : String → String → String → Option β :=
  fun b' v' k' => if b' = b ∧ v' = v ∧ k' = k then x else f b' v' k'

/-- The empty cache directory. -/
def emptyFS : CacheFS :=
  { nestedAudio := fun _ _ _ => none
    nestedMeta := fun _ _ _ => none
    flatAudio := fun _ => none
    flatMeta := fun _ => none }

/-- `migrateCacheFile(bookKey, voice, cacheKey)` (part_001 lines 152-187):
read the legacy audio file (on failure the outer catch logs and rethrows,
modelled as `none` with no state change, since the read is the first file
operation), write it at the nested location, copy the legacy metadata file
if it exists (missing metadata is tolerated), delete the legacy audio file
(it is present, so `unlink` succeeds), and delete the legacy metadata file
inside try/catch (already-absent metadata is tolerated). -/
def migrateCacheFile (fs : CacheFS) (bookKey voice cacheKey : String) :
    Option CacheFS :=
  match fs.flatAudio cacheKey with
  | none => none
  | some audioBuffer =>
    let fs1 : CacheFS :=
      { fs with nestedAudio := upd3 fs.nestedAudio bookKey voice cacheKey (some audioBuffer) }
    let fs2 : CacheFS :=
      match fs1.flatMeta cacheKey with
      | some metaBuffer =>
        { fs1 with nestedMeta := upd3 fs1.nestedMeta bookKey voice cacheKey (some metaBuffer) }
      | none => fs1
    let fs3 : CacheFS := { fs2 with flatAudio := upd1 fs2.flatAudio cacheKey none }
    let fs4 : CacheFS := { fs3 with flatMeta := upd1 fs3.flatMeta cacheKey none }
    some fs4

/-- `isCached(bookKey, voice, cacheKey)` of the synthesize route
(part_001 lines 80-98): `fs.access` on the nested path; on failure,
`fs.access` on the legacy flat path and, when found there, migrate before
returning true.  A throw from `migrateCacheFile` is caught by the inner
catch and yields false. -/
def isCached (fs : CacheFS) (bookKey voice cacheKey : String) :
    Bool × CacheFS :=
  match fs.nestedAudio bookKey voice cacheKey with
  | some _ => (true, fs)
  | none =>
    match fs.flatAudio cacheKey with
    | some _ =>
      match migrateCacheFile fs bookKey voice cacheKey with
      | some fs' => (true, fs')
      | none => (false, fs)
    | none => (false, fs)

/-- `getCachedAudio(bookKey, voice, cacheKey)` (part_001 lines 101-104):
`fs.readFile` of the nested audio path; `none` models the throw when the
file is absent. -/
def getCachedAudio (fs : CacheFS) (bookKey voice cacheKey : String) :
    Option Bytes :=
  fs.nestedAudio bookKey voice cacheKey

/-- The `Partial<CacheMetadata>` argument of `cacheAudio`; only the fields
the route ever passes. -/
structure PartialMeta where
  text : Option String := none
  voice : Option String := none
  bookKey : Option String := none
deriving DecidableEq, Repr

/-- `cacheAudio(bookKey, voice, cacheKey, audioBuffer, metadata)`
(part_001 lines 107-134): write the audio buffer at the nested path, then
write a fresh metadata record with `useCount = 1`, both timestamps `now`,
`size` the buffer length, and `text`/`voice` defaulted to the empty string
(JS `||`) when absent. -/
def cacheAudio (fs : CacheFS) (bookKey voice cacheKey : String)
    (audioBuffer : Bytes) (metadata : PartialMeta) (now : String) : CacheFS :=
  let metaData : CacheMetadata :=
    { text := metadata.text.getD ("")
      voice := metadata.voice.getD ("")
      size := audioBuffer.length
      created := now
      lastUsed := now
      useCount := 1
      bookKey := metadata.bookKey }
  { fs with
    nestedAudio := upd3 fs.nestedAudio bookKey voice cacheKey (some audioBuffer)
    nestedMeta := upd3 fs.nestedMeta bookKey voice cacheKey (some (MetaFile.valid metaData)) }

/-- `updateMetadata(bookKey, voice, cacheKey)` (part_001 lines 137-149):
read and parse the nested metadata file, bump `useCount`, refresh
`lastUsed`, and write it back; a missing or unparsable metadata file is
caught, logged and ignored (the state is returned unchanged). -/
def updateMetadata (fs : CacheFS) (bookKey voice cacheKey : String)
    (now : String) : CacheFS :=
  match fs.nestedMeta bookKey voice cacheKey with
  | some (MetaFile.valid meta) =>
    { fs with
      nestedMeta := upd3 fs.nestedMeta bookKey voice cacheKey
        (some (MetaFile.valid { meta with lastUsed := now, useCount := meta.useCount + 1 })) }
  | _ => fs

/-! ### The check endpoint (`check/route.ts`)

`POST /api/tts/vieneu/check` body `{texts[], voice, bookKey?}`.  Its
`isCached` is read-only: it probes the nested location (when a book key is
present) and then the legacy flat location, with no migration. -/

/-- JS truthiness of an optional string request field: `undefined` and the
empty string are falsy. -/
def isTruthy : Option String → Bool
  | none => false
  | some s => !(s = "")

/-- `extractBookHash(bookKey)`: the prefix of the composite key before the
first dash (`bookKey.split('-')[0]`). -/
def extractBookHash (bookKey : String) : String :=
  (bookKey.splitOn ("-")).headD ("")

/-- `isCached` of the check route (check/route.ts lines 61-81): nested
location first when `bookKey` is truthy, then the legacy flat location;
no side effects. -/
def isCachedCheck (fs : CacheFS) (bookKey : Option String)
    (voice cacheKey : String) : Bool :=
  match bookKey with
  | some bk =>
    match fs.nestedAudio bk voice cacheKey with
    | some _ => true
    | none => (fs.flatAudio cacheKey).isSome
  | none => (fs.flatAudio cacheKey).isSome

/-- One element of the check response's `results` array. -/
structure CheckResult where
  text : String
  cached : Bool
  cacheKey : String
deriving DecidableEq, Repr

/-- The check response body. -/
structure CheckResponse where
  results : List CheckResult
  cachedCount : Nat
  totalCount : Nat
  cacheRate : ℚ
deriving DecidableEq, Repr

/-- The `POST` handler of the check route (check/route.ts lines 84-124) on
a well-formed request: derive the effective book key (`undefined` when the
request's `bookKey` is falsy, else `extractBookHash`), produce one result
per input text with its cached flag and truncated key, and the aggregate
counts with the hit rate rounded to two decimals. -/
def checkPOST (md5hex : String → String) (fs : CacheFS)
    (texts : List String) (voice : String) (bookKey : Option String) :
    CheckResponse :=
  let effectiveBookKey : Option String :=
    if isTruthy bookKey then some (extractBookHash (bookKey.getD ("")))
    else none
  let results : List CheckResult := texts.map (fun text =>
    let cacheKey := generateCacheKey md5hex text voice
    { text := text
      cached := isCachedCheck fs effectiveBookKey voice cacheKey
      cacheKey := cacheKey.take 12 })
  let cachedCount := (results.filter (fun r => r.cached)).length
  let totalCount := results.length
  let cacheRate : ℚ :=
    if 0 < totalCount then (cachedCount : ℚ) / (totalCount : ℚ) else 0
  { results := results
    cachedCount := cachedCount
    totalCount := totalCount
    cacheRate := (round (cacheRate * 100) : ℚ) / 100 }

/-! ### The eviction endpoint (`stats/route.ts`, `POST`)

`POST /api/tts/vieneu/stats` body `{bookKey?, voice?}`.  The handler lists
the top-level entries of `CACHE_DIR` with a non-recursive `fs.readdir` and
keeps the names ending in `.mp3`: these are exactly the legacy flat-layout
audio files (book directories are named by an MD5 hash or `_default` and do
not end in `.mp3`; files inside them are never listed).  The nested layout
is therefore untouched by this handler, which the state model keeps
explicit. -/

/-- A top-level (legacy flat layout) audio file together with the content
of its sibling metadata file, as the eviction handler sees it. -/
structure FlatFile where
  cacheKey : String
  size : Nat
  meta : Option MetaFile
deriving DecidableEq, Repr

/-- A current-layout audio file `bookKey/voice/cacheKey.mp3`. -/
structure NestedFile where
  bookKey : String
  voice : String
  cacheKey : String
  size : Nat
  meta : Option MetaFile
deriving DecidableEq, Repr

/-- The cache directory as the stats route sees it: the flat files at top
level (in `readdir` order) and the files inside book/voice
subdirectories. -/
structure CacheDirState where
  flat : List FlatFile
  nested : List NestedFile
deriving DecidableEq, Repr

/-- The per-file filter of the eviction loop (stats/route.ts lines
207-231).  With no truthy filter every audio file is deleted.  Otherwise
the metadata is read and parsed: on success, `bookKey && meta.bookKey ===
bookKey` selects the book (refined by the voice when truthy), and
otherwise `voice && !bookKey && meta.voice === voice` selects the voice;
when the metadata is missing or unparsable the catch re-tests the
no-filter case (dead here, transcribed nonetheless) and the file is
kept. -/
def shouldDelete (bookKey voice : Option String) (meta : Option MetaFile) :
    Bool :=
  if !isTruthy bookKey && !isTruthy voice then true
  else
    match meta with
    | some (MetaFile.valid m) =>
      if isTruthy bookKey && m.bookKey = bookKey then
        (if !isTruthy voice || some m.voice = voice then true else false)
      else if isTruthy voice && !isTruthy bookKey && some m.voice = voice then
        true
      else false
    | _ => if !isTruthy bookKey && !isTruthy voice then true else false

/-- The eviction loop over the top-level audio files: each selected file
has its size counted, is unlinked (its metadata file with it, tolerating
absence), and increments the deleted count.  Returns the kept files, the
deleted count and the freed bytes. -/
def clearCacheLoop (bookKey voice : Option String) :
    List FlatFile → List FlatFile × Nat × Nat
  | [] => ([], 0, 0)
  | f :: rest =>
    let (kept, count, size) := clearCacheLoop bookKey voice rest
    if shouldDelete bookKey voice f.meta then (kept, count + 1, size + f.size)
    else (f :: kept, count, size)

/-- The `POST` handler of the stats route (stats/route.ts lines 188-274)
on a well-formed request: run the eviction loop over the top-level audio
files and report `deletedCount` and the freed bytes.  Files under book
directories are outside the `readdir`/`.mp3` listing, so the nested part
of the state passes through unchanged. -/
def clearCache (bookKey voice : Option String) (st : CacheDirState) :
    CacheDirState × Nat × Nat :=
  let (kept, count, size) := clearCacheLoop bookKey voice st.flat
  ({ flat := kept, nested := st.nested }, count, size)

/-! ### The pre-cache orchestrator's synthesizing loop
(`PreCacheService.ts`, `preCacheBook` step 3)

The uncached texts are processed in slices of `BATCH_SIZE = 5`
(`for (let i = 0; i < uncachedTexts.length; i += BATCH_SIZE)` with
`slice(i, i + BATCH_SIZE)`); the batch's requests run concurrently and
each one, on success, increments `completed` and invokes the progress
callback; failures are logged and skipped.  JavaScript runs the `then`
continuations one at a time, so the emitted `completed` values are the
consecutive integers following the batch's starting point regardless of
completion order; the model serialises the batch accordingly.  The
request outcome (success or failure) of each text is a parameter.
Cancellation and pause are external events, modelled as never
triggered. -/

/-- The lifecycle states of `PreCacheProgress`. -/
inductive PCState where
  | idle
  | extracting
  | checking
  | synthesizing
  | completed
  | paused
  | failed
  | cancelled
deriving DecidableEq, Repr

/-- A progress report passed to the `onProgress` callback. -/
structure PreCacheProgress where
  state : PCState
  current : Nat
  total : Nat
  percentage : ℤ
  message : String
  error : Option String
deriving DecidableEq, Repr

/-- `updateProgress` (PreCacheService.ts lines 236-246): build a report
whose percentage is `Math.round((current / total) * 100)` when the total
is positive and `0` otherwise. -/
def updateProgress (state : PCState) (current total : Nat) (message : String)
    (error : Option String) : PreCacheProgress :=
  { state := state
    current := current
    total := total
    percentage :=
      if 0 < total then round (((current : ℚ) / (total : ℚ)) * 100) else 0
    message := message
    error := error }

/-- The percentage a report should carry according to the specification:
`round(current * 100 / total)`, and `0` when the total is `0`. -/
def pctFormula (p : PreCacheProgress) : ℤ :=
  if p.total = 0 then 0 else round ((100 * (p.current : ℚ)) / (p.total : ℚ))

/-- `BATCH_SIZE = 5`: five concurrent synthesis requests per batch. -/
def BATCH_SIZE : Nat := 5

/-- The batch decomposition of the loop
`for (i = 0; i < n; i += BATCH_SIZE) slice(i, i + BATCH_SIZE)`, written
with explicit fuel for structural recursion; each step consumes at least
one element, so fuel equal to the list length is always enough. -/
def toBatchesAux {α : Type} : Nat → List α → List (List α)
  | 0, _ => []
  | _, [] => []
  | fuel + 1, x :: xs => (x :: xs).take BATCH_SIZE :: toBatchesAux fuel ((x :: xs).drop BATCH_SIZE)

/-- The consecutive batches of at most `BATCH_SIZE` uncached texts, in
extraction order. -/
def toBatches {α : Type} (l : List α) : List (List α) :=
  toBatchesAux l.length l

/-- The progress-report message of a successful chunk. -/
def synthesizedMsg (completed total : Nat) : String :=
  "Synthesized " ++ toString completed ++ "/" ++ toString total ++ " chunks..."

/-- One batch: each text is synthesized; on success `completed` is
incremented and one `synthesizing` progress report is emitted; on failure
the error is logged and the chunk is skipped with no report.  Returns the
new `completed` counter and the reports emitted during the batch. -/
def processBatch (outcome : String → Bool) (total : Nat) :
    Nat → List String → Nat × List PreCacheProgress
  | completed, [] => (completed, [])
  | completed, text :: rest =>
    if outcome text then
      let next := processBatch outcome total (completed + 1) rest
      (next.1, updateProgress PCState.synthesizing (completed + 1) total
        (synthesizedMsg (completed + 1) total) none :: next.2)
    else processBatch outcome total completed rest

/-- All batches in order, threading the `completed` counter. -/
def processBatches (outcome : String → Bool) (total : Nat) :
    Nat → List (List String) → Nat × List PreCacheProgress
  | completed, [] => (completed, [])
  | completed, batch :: rest =>
    let first := processBatch outcome total completed batch
    let next := processBatches outcome total first.1 rest
    (next.1, first.2 ++ next.2)

/-! ### Concrete values used by closed instances -/

/-- The identity digest, a concrete instance of the `md5hex` parameter. -/
def hId : String → String := fun s => s

/-- A concrete book identity. -/
def bookB : String := "B"

/-- A concrete voice identifier. -/
def voiceV : String := "V"

/-- A concrete cache key. -/
def keyK : String := "K"

/-- A concrete timestamp string. -/
def nowT : String := "2024-01-01T00:00:00.000Z"

/-- A cache state whose only file is a legacy flat audio file at `keyK`
with a sibling metadata file. -/
def fsLegacyOnly : CacheFS :=
  { nestedAudio := fun _ _ _ => none
    nestedMeta := fun _ _ _ => none
    flatAudio := fun k => if k = keyK then some [1, 2, 3] else none
    flatMeta := fun k => if k = keyK then some (MetaFile.corrupt "notjson")
      else none }

/-- A cache state with a nested audio file at `(bookB, voiceV, keyK)` whose
metadata file is corrupt. -/
def fsCorruptMeta : CacheFS :=
  { nestedAudio := fun b v k =>
      if b = bookB ∧ v = voiceV ∧ k = keyK then some [7, 7] else none
    nestedMeta := fun b v k =>
      if b = bookB ∧ v = voiceV ∧ k = keyK then some (MetaFile.corrupt "notjson")
      else none
    flatAudio := fun _ => none
    flatMeta := fun _ => none }

/-- A cache-directory state with a single current-layout (nested) entry
belonging to book `bookB`, as `cacheAudio` writes it, and an empty top
level. -/
def stNestedOnly : CacheDirState :=
  { flat := []
    nested := [{ bookKey := bookB
                 voice := voiceV
                 cacheKey := keyK
                 size := 3
                 meta := some (MetaFile.valid
                   { text := "t"
                     voice := voiceV
                     size := 3
                     created := nowT
                     lastUsed := nowT
                     useCount := 1
                     bookKey := some bookB }) }] }

/-- The three chunks of the pipeline scenario. -/
def scenarioTexts : List String := ["Hello world", "Hello   world", "Goodbye"]

/-- The first scenario chunk. -/
def tHelloWorld : String := "Hello world"

/-- The second scenario chunk: same words, a longer whitespace run. -/
def tHelloWs : String := "Hello   world"

/-- The third scenario chunk. -/
def tGoodbye : String := "Goodbye"

/-- A composite book key with a session suffix. -/
def bookKeyB1 : String := "B-1"

/-- The text with a double space from the whitespace-invariance property. -/
def textAB2 : String := "a  b"

/-- The single-space text from the whitespace-invariance property. -/
def textAB1 : String := "a b"

/-- The surrounding-whitespace text from the whitespace-invariance
property. -/
def textABsp : String := " a b "

/-- The empty text. -/
def emptyText : String := ""

/-- The text of the first colliding pair. -/
def tColl1 : String := "ab"

/-- The voice of the first colliding pair. -/
def vColl1 : String := "c"

/-- The text of the second colliding pair. -/
def tColl2 : String := "a"

/-- The voice of the second colliding pair. -/
def vColl2 : String := "bc"

/-- A generic voice. -/
def vX : String := "x"

/-- Seven chunk texts, enough for two batches. -/
def sevenTexts : List String := ["c1", "c2", "c3", "c4", "c5", "c6", "c7"]

/-- An outcome function under which every synthesis request succeeds. -/
def allOk : String → Bool := fun _ => true

/-- Two chunk texts: a single batch. -/
def twoTexts : List String := ["a", "b"]

/-! ### Shared lemmas about point updates -/

theorem upd1_self {β : Type} (f : String → Option β) (k : String)
    (x : Option β) : upd1 f k x k = x := by
  simp [upd1]

theorem upd3_self {β : Type} (f : String → String → String → Option β)
    (b v k : String) (x : Option β) : upd3 f b v k x b v k = x := by
  simp [upd3]

/-! ### C9: write/read round trip -/

/-- C9: for every book, voice, key, byte payload and metadata, `cacheAudio`
followed by `getCachedAudio` of the same `(book, voice, key)` returns
exactly the written bytes. -/
theorem cacheAudio_getCachedAudio_roundtrip (fs : CacheFS)
    (b v k : String) (audio : Bytes) (pm : PartialMeta) (now : String) :
    getCachedAudio (cacheAudio fs b v k audio pm now) b v k = some audio := by
  simp [getCachedAudio, cacheAudio, upd3]

/-! ### C8: `touch` on missing or corrupt metadata -/

/-- C8: for every cache entry whose metadata file is missing or unreadable,
`updateMetadata` does not raise (it is a total no-op returning the state
unchanged) and a subsequent `getCachedAudio` of the entry's audio still
succeeds. -/
theorem updateMetadata_missing_or_corrupt_noop (fs : CacheFS)
    (b v k now : String) (audio : Bytes)
    (hmeta : fs.nestedMeta b v k = none ∨
      ∃ s, fs.nestedMeta b v k = some (MetaFile.corrupt s))
    (haudio : fs.nestedAudio b v k = some audio) :
    updateMetadata fs b v k now = fs ∧
    getCachedAudio (updateMetadata fs b v k now) b v k = some audio := by
  have hnoop : updateMetadata fs b v k now = fs := by
    unfold updateMetadata
    rcases hmeta with h | ⟨s, h⟩ <;> rw [h]
  exact ⟨hnoop, by rw [hnoop]; exact haudio⟩

/-- Closed instance of the C8 theorem at a concrete state with a corrupt
metadata file. -/
theorem updateMetadata_missing_or_corrupt_noop_witness :
    updateMetadata fsCorruptMeta bookB voiceV keyK nowT = fsCorruptMeta ∧
    getCachedAudio (updateMetadata fsCorruptMeta bookB voiceV keyK nowT)
      bookB voiceV keyK = some [7, 7] :=
  updateMetadata_missing_or_corrupt_noop fsCorruptMeta bookB voiceV keyK
    nowT [7, 7] (Or.inr ⟨"notjson", by decide⟩) (by decide)

/-! ### C2: existence checks and legacy-entry migration -/

/-- C2 as stated is false: not every existence check is layout-upgrading.
The check route's `isCached` (check/route.ts lines 61-81) is read-only:
on an entry present only in the legacy flat layout it returns true
straight from the legacy location and performs no migration — it takes no
state and has no side effects, so after the check the legacy audio file is
still present and the current-layout file still absent, contradicting the
claim's "legacy audio and metadata files absent afterwards, current-layout
files present" for this existence check.  Evaluation at a concrete
legacy-only state. -/
theorem isCachedCheck_no_migration_cx :
    isCachedCheck fsLegacyOnly (some bookB) voiceV keyK = true ∧
    fsLegacyOnly.flatAudio keyK = some [1, 2, 3] ∧
    fsLegacyOnly.flatMeta keyK = some (MetaFile.corrupt "notjson") ∧
    fsLegacyOnly.nestedAudio bookB voiceV keyK = none ∧
    fsLegacyOnly.nestedMeta bookB voiceV keyK = none := by
  decide

/-- C2 (amended): for an entry present only in the legacy flat layout, the
first existence check by the synthesize route's `isCached` (part_001 lines
80-98) under a known `(book, voice)` migrates it — afterwards the legacy
audio and metadata files are absent and the current-layout files present —
and returns true; a second such check returns true and leaves the state
unchanged.  Only this route's existence check is layout-upgrading; the
check route's read-only `isCached` is not. -/
theorem isCached_migrates_legacy_exactly_once (fs : CacheFS)
    (b v k : String) (audio : Bytes) (mf : MetaFile)
    (hnested : fs.nestedAudio b v k = none)
    (hflat : fs.flatAudio k = some audio)
    (hmeta : fs.flatMeta k = some mf) :
    (isCached fs b v k).1 = true ∧
    (isCached fs b v k).2.nestedAudio b v k = some audio ∧
    (isCached fs b v k).2.nestedMeta b v k = some mf ∧
    (isCached fs b v k).2.flatAudio k = none ∧
    (isCached fs b v k).2.flatMeta k = none ∧
    isCached (isCached fs b v k).2 b v k = (true, (isCached fs b v k).2) := by
  simp only [isCached, migrateCacheFile, hnested, hflat, hmeta]
  simp [upd1, upd3]

/-- Closed instance of the C2 theorem at a concrete legacy-only state. -/
theorem isCached_migrates_legacy_exactly_once_witness :
    (isCached fsLegacyOnly bookB voiceV keyK).1 = true ∧
    (isCached fsLegacyOnly bookB voiceV keyK).2.nestedAudio bookB voiceV keyK
      = some [1, 2, 3] ∧
    (isCached fsLegacyOnly bookB voiceV keyK).2.nestedMeta bookB voiceV keyK
      = some (MetaFile.corrupt "notjson") ∧
    (isCached fsLegacyOnly bookB voiceV keyK).2.flatAudio keyK = none ∧
    (isCached fsLegacyOnly bookB voiceV keyK).2.flatMeta keyK = none ∧
    isCached (isCached fsLegacyOnly bookB voiceV keyK).2 bookB voiceV keyK
      = (true, (isCached fsLegacyOnly bookB voiceV keyK).2) :=
  isCached_migrates_legacy_exactly_once fsLegacyOnly bookB voiceV keyK
    [1, 2, 3] (MetaFile.corrupt "notjson") (by decide) (by decide) (by decide)

/-! ### C4: migration copies then deletes; re-invocation -/

/-- C4 as stated is false: after a completed migration the legacy audio
file is gone, so a second `migrateCacheFile` for the same key fails — its
initial read of the legacy audio file throws and the outer catch rethrows.
The first invocation on a legacy entry succeeds; the second returns an
error. -/
theorem migrateCacheFile_second_call_fails_cx :
    (migrateCacheFile fsLegacyOnly bookB voiceV keyK).isSome = true ∧
    ((migrateCacheFile fsLegacyOnly bookB voiceV keyK).bind
      (fun fs' => migrateCacheFile fs' bookB voiceV keyK)).isSome = false := by
  constructor
  · decide
  · simp only [migrateCacheFile]
    decide

/-- C4 (amended): `migrateCacheFile` copies the legacy audio (and the
legacy metadata when present) to the current-layout location and then
deletes the legacy files, and deleting an already-absent legacy *metadata*
file is treated as success; but a second invocation for the same key after
a completed migration fails, because reading the now-deleted legacy audio
file raises an error that `migrateCacheFile` rethrows. -/
theorem migrateCacheFile_copies_deletes_second_fails (fs : CacheFS)
    (b v k : String) (audio : Bytes)
    (hflat : fs.flatAudio k = some audio) :
    ∃ fs', migrateCacheFile fs b v k = some fs' ∧
      fs'.nestedAudio b v k = some audio ∧
      fs'.flatAudio k = none ∧
      fs'.flatMeta k = none ∧
      (∀ mf, fs.flatMeta k = some mf → fs'.nestedMeta b v k = some mf) ∧
      (fs.flatMeta k = none → fs'.nestedMeta = fs.nestedMeta) ∧
      migrateCacheFile fs' b v k = none := by
  simp only [migrateCacheFile, hflat]
  refine ⟨_, rfl, ?_, ?_, ?_, ?_, ?_, ?_⟩
  · cases h : fs.flatMeta k <;> simp [h, upd3]
  · cases h : fs.flatMeta k <;> simp [h, upd1]
  · cases h : fs.flatMeta k <;> simp [h, upd1]
  · intro mf hmf
    simp [hmf, upd3]
  · intro hnone
    simp [hnone]
  · cases h : fs.flatMeta k <;> simp [h, upd1]

/-- Closed instance of the amended C4 theorem at a concrete legacy
entry. -/
theorem migrateCacheFile_copies_deletes_second_fails_witness :
    ∃ fs', migrateCacheFile fsLegacyOnly bookB voiceV keyK = some fs' ∧
      fs'.nestedAudio bookB voiceV keyK = some [1, 2, 3] ∧
      fs'.flatAudio keyK = none ∧
      fs'.flatMeta keyK = none ∧
      (∀ mf, fsLegacyOnly.flatMeta keyK = some mf →
        fs'.nestedMeta bookB voiceV keyK = some mf) ∧
      (fsLegacyOnly.flatMeta keyK = none →
        fs'.nestedMeta = fsLegacyOnly.nestedMeta) ∧
      migrateCacheFile fs' bookB voiceV keyK = none :=
  migrateCacheFile_copies_deletes_second_fails fsLegacyOnly bookB voiceV
    keyK [1, 2, 3] (by decide)

/-! ### Whitespace-normalisation lemmas for the cache key

The chain below shows `normalizeText` depends only on the list of maximal
non-whitespace runs of the text, which formalises "two texts that differ
only in whitespace run-length or in leading/trailing whitespace". -/

theorem dropWhile_append_all {α : Type} (p : α → Bool) (xs ys : List α)
    (h : ∀ x ∈ xs, p x = true) :
    (xs ++ ys).dropWhile p = ys.dropWhile p := by
  induction xs with
  | nil => rfl
  | cons a as ih =>
    have ha : p a = true := h a (List.mem_cons_self a as)
    have ih' := ih (fun x hx => h x (List.mem_cons_of_mem a hx))
    simp [List.dropWhile_cons, ha, ih']

theorem dropWhile_append_ne_nil {α : Type} (p : α → Bool) (xs ys : List α)
    (h : xs.dropWhile p ≠ []) :
    (xs ++ ys).dropWhile p = xs.dropWhile p ++ ys := by
  induction xs with
  | nil => simp at h
  | cons a as ih =>
    by_cases ha : p a = true
    · have hstep : (a :: as).dropWhile p = as.dropWhile p := by
        simp [List.dropWhile_cons, ha]
      rw [hstep] at h
      simp [List.dropWhile_cons, ha, ih h, hstep]
    · have ha' : p a = false := by simpa using ha
      simp [List.dropWhile_cons, ha']

theorem dropWhile_ne_nil_of_exists {α : Type} (p : α → Bool) (xs : List α)
    (h : ∃ x ∈ xs, p x = false) : xs.dropWhile p ≠ [] := by
  induction xs with
  | nil => simp at h
  | cons a as ih =>
    rcases h with ⟨x, hx, hpx⟩
    by_cases ha : p a = true
    · have : (a :: as).dropWhile p = as.dropWhile p := by
        simp [List.dropWhile_cons, ha]
      rw [this]
      apply ih
      rcases List.mem_cons.mp hx with rfl | hx'
      · rw [ha] at hpx; cases hpx
      · exact ⟨x, hx', hpx⟩
    · have ha' : p a = false := by simpa using ha
      simp [List.dropWhile_cons, ha']

theorem dropWhile_eq_nil_or_head {α : Type} (p : α → Bool) (l : List α) :
    l.dropWhile p = [] ∨
      ∃ c rest, l.dropWhile p = c :: rest ∧ p c = false := by
  induction l with
  | nil => exact Or.inl rfl
  | cons a as ih =>
    by_cases ha : p a = true
    · simpa [List.dropWhile_cons, ha] using ih
    · have ha' : p a = false := by simpa using ha
      exact Or.inr ⟨a, as, by simp [List.dropWhile_cons, ha'], ha'⟩

theorem trimRight_append_all_ws (a w : List Char)
    (h : ∀ x ∈ w, isJsWhitespace x = true) :
    trimRight (a ++ w) = trimRight a := by
  unfold trimRight
  rw [List.reverse_append,
    dropWhile_append_all _ _ _ (fun x hx => h x (List.mem_reverse.mp hx))]

theorem trimRight_append_keep (a m : List Char)
    (h : ∃ x ∈ m, isJsWhitespace x = false) :
    trimRight (a ++ m) = a ++ trimRight m := by
  unfold trimRight
  have hne : m.reverse.dropWhile isJsWhitespace ≠ [] := by
    apply dropWhile_ne_nil_of_exists
    rcases h with ⟨x, hx, hpx⟩
    exact ⟨x, List.mem_reverse.mpr hx, hpx⟩
  rw [List.reverse_append, dropWhile_append_ne_nil _ _ _ hne,
    List.reverse_append, List.reverse_reverse]

theorem trimRight_all_nonws (a : List Char)
    (h : ∀ x ∈ a, isJsWhitespace x = false) : trimRight a = a := by
  unfold trimRight
  have hdw : a.reverse.dropWhile isJsWhitespace = a.reverse := by
    cases hr : a.reverse with
    | nil => rfl
    | cons y ys =>
      have hy : isJsWhitespace y = false := by
        apply h
        rw [← List.mem_reverse, hr]
        exact List.mem_cons_self y ys
      simp [List.dropWhile_cons, hy]
  rw [hdw, List.reverse_reverse]

theorem trimRight_prefix_of_self (l : List Char) : trimRight l <+: l := by
  have h1 : l.reverse.dropWhile isJsWhitespace <:+ l.reverse :=
    List.dropWhile_suffix _
  have h2 := List.reverse_prefix.mpr h1
  simpa [trimRight] using h2

theorem trimRight_ne_nil (c : Char) (m : List Char)
    (hc : isJsWhitespace c = false) : trimRight (c :: m) ≠ [] := by
  unfold trimRight
  intro hcontra
  rw [List.reverse_eq_nil_iff] at hcontra
  have hne : (c :: m).reverse.dropWhile isJsWhitespace ≠ [] := by
    apply dropWhile_ne_nil_of_exists
    exact ⟨c, by simp, hc⟩
  exact hne hcontra

theorem trimRight_cons_head (c : Char) (m : List Char)
    (hne : trimRight (c :: m) ≠ []) :
    ∃ m', trimRight (c :: m) = c :: m' := by
  have hp := trimRight_prefix_of_self (c :: m)
  cases htr : trimRight (c :: m) with
  | nil => exact absurd htr hne
  | cons y ys =>
    rw [htr] at hp
    rcases List.cons_prefix_cons.mp hp with ⟨rfl, _⟩
    exact ⟨ys, rfl⟩

theorem collapseWsGo_nonws_front (t r : List Char)
    (h : ∀ x ∈ t, isJsWhitespace x = false) :
    collapseWsGo false (t ++ r) = t ++ collapseWsGo false r := by
  induction t with
  | nil => rfl
  | cons a as ih =>
    have ha : isJsWhitespace a = false := h a (List.mem_cons_self a as)
    simp [collapseWsGo, ha, ih (fun x hx => h x (List.mem_cons_of_mem a hx))]

theorem collapseWsGo_true_allws (w r : List Char)
    (h : ∀ x ∈ w, isJsWhitespace x = true) :
    collapseWsGo true (w ++ r) = collapseWsGo true r := by
  induction w with
  | nil => rfl
  | cons a as ih =>
    have ha : isJsWhitespace a = true := h a (List.mem_cons_self a as)
    simp [collapseWsGo, ha, ih (fun x hx => h x (List.mem_cons_of_mem a hx))]

theorem collapseWsGo_true_eq_false (r : List Char)
    (h : ∀ c rest, r = c :: rest → isJsWhitespace c = false) :
    collapseWsGo true r = collapseWsGo false r := by
  cases r with
  | nil => rfl
  | cons c rest =>
    have hc := h c rest rfl
    simp [collapseWsGo, hc]

theorem wordsGo_nil_dropWhile (l : List Char) :
    wordsGo [] l = wordsGo [] (l.dropWhile isJsWhitespace) := by
  induction l with
  | nil => rfl
  | cons c rest ih =>
    by_cases hc : isJsWhitespace c = true
    · simpa [wordsGo, hc, List.dropWhile_cons] using ih
    · have hc' : isJsWhitespace c = false := by simpa using hc
      simp [wordsGo, hc', List.dropWhile_cons]

theorem wordsGo_nil_allws (w : List Char)
    (h : ∀ x ∈ w, isJsWhitespace x = true) : wordsGo [] w = [] := by
  induction w with
  | nil => rfl
  | cons b bs ih =>
    have hb : isJsWhitespace b = true := h b (List.mem_cons_self b bs)
    simp [wordsGo, hb, ih (fun x hx => h x (List.mem_cons_of_mem b hx))]

theorem wordsGo_nonws_accum (t : List Char)
    (h : ∀ x ∈ t, isJsWhitespace x = false) (acc r : List Char) :
    wordsGo acc (t ++ r) = wordsGo (t.reverse ++ acc) r := by
  induction t generalizing acc with
  | nil => simp
  | cons a as ih =>
    have ha : isJsWhitespace a = false := h a (List.mem_cons_self a as)
    have step := ih (fun x hx => h x (List.mem_cons_of_mem a hx)) (a :: acc)
    simp [wordsGo, ha, step]

theorem wordsGo_allws_acc (w acc : List Char) (hacc : acc ≠ [])
    (h : ∀ x ∈ w, isJsWhitespace x = true) :
    wordsGo acc w = [acc.reverse] := by
  cases acc with
  | nil => exact absurd rfl hacc
  | cons a as =>
    cases w with
    | nil => rfl
    | cons b bs =>
      have hb : isJsWhitespace b = true := h b (List.mem_cons_self b bs)
      simp [wordsGo, hb,
        wordsGo_nil_allws bs (fun x hx => h x (List.mem_cons_of_mem b hx))]

theorem wordsGo_acc_ws_cons (acc : List Char) (hacc : acc ≠ []) (b : Char)
    (bs : List Char) (hb : isJsWhitespace b = true) :
    wordsGo acc (b :: bs) = acc.reverse :: wordsGo [] bs := by
  cases acc with
  | nil => exact absurd rfl hacc
  | cons a as => simp [wordsGo, hb]

theorem wordsGo_ne_nil (r : List Char) :
    ∀ (a : Char) (acc : List Char), wordsGo (a :: acc) r ≠ [] := by
  induction r with
  | nil => intro a acc; simp [wordsGo]
  | cons b bs ih =>
    intro a acc
    by_cases hb : isJsWhitespace b = true
    · simp [wordsGo, hb]
    · have hb' : isJsWhitespace b = false := by simpa using hb
      simpa [wordsGo, hb'] using ih b (a :: acc)

/-- Key lemma: on a list with no leading whitespace, collapsing whitespace
after trimming the right end produces exactly the single-space join of the
maximal non-whitespace runs. -/
theorem collapse_trim_eq_unwords_aux :
    ∀ n : Nat, ∀ l : List Char, l.length ≤ n →
    (l = [] ∨ ∃ c rest, l = c :: rest ∧ isJsWhitespace c = false) →
    collapseWsGo false (trimRight l) = unwords (wordsGo [] l) := by
  intro n
  induction n with
  | zero =>
    intro l hlen _
    have hnil : l = [] := List.length_eq_zero.mp (Nat.le_zero.mp hlen)
    subst hnil
    rfl
  | succ n ih =>
    intro l hlen hl
    rcases hl with rfl | ⟨c, rest, rfl, hc⟩
    · rfl
    have hrest := List.takeWhile_append_dropWhile (fun x => !isJsWhitespace x) rest
    set t := rest.takeWhile (fun x => !isJsWhitespace x) with ht
    set d := rest.dropWhile (fun x => !isJsWhitespace x) with hd
    have htNon : ∀ x ∈ t, isJsWhitespace x = false := by
      intro x hx
      have := List.mem_takeWhile_imp hx
      simpa using this
    have hdm := List.takeWhile_append_dropWhile isJsWhitespace d
    set w := d.takeWhile isJsWhitespace with hw
    set m := d.dropWhile isJsWhitespace with hm
    have hwWs : ∀ x ∈ w, isJsWhitespace x = true := by
      intro x hx
      exact List.mem_takeWhile_imp hx
    have hctNon : ∀ x ∈ c :: t, isJsWhitespace x = false := by
      intro x hx
      rcases List.mem_cons.mp hx with rfl | hx'
      · exact hc
      · exact htNon x hx'
    rcases dropWhile_eq_nil_or_head isJsWhitespace d with hmnil | ⟨m0, m', hm0, hm0ns⟩
    · -- the text ends in whitespace (or in the last word): no further word
      have hmnil' : m = [] := by rw [hm]; exact hmnil
      have hld : c :: rest = (c :: t) ++ w := by
        rw [List.cons_append]
        congr 1
        rw [← hrest]
        congr 1
        rw [← hdm, hmnil', List.append_nil]
      rw [hld]
      rw [trimRight_append_all_ws (c :: t) w hwWs]
      rw [trimRight_all_nonws _ hctNon]
      have hcoll : collapseWsGo false (c :: t) = c :: t := by
        simpa [collapseWsGo] using collapseWsGo_nonws_front (c :: t) [] hctNon
      rw [hcoll]
      have hwords : wordsGo [] ((c :: t) ++ w) = [c :: t] := by
        have step1 : wordsGo [] ((c :: t) ++ w) = wordsGo ((c :: t).reverse ++ []) w :=
          wordsGo_nonws_accum (c :: t) hctNon [] w
      -- fallthrough handled below
        rw [step1, List.append_nil]
        rw [wordsGo_allws_acc w (c :: t).reverse (by simp) hwWs]
        simp
      rw [hwords]
      rfl
    · -- a further word follows the whitespace run
      have hm0' : m = m0 :: m' := by rw [hm]; exact hm0
      -- the whitespace run before it is nonempty
      have hdcons : d ≠ [] := by
        intro hdnil
        rw [hdnil] at hm
        simp at hm
        rw [hm] at hm0'
        cases hm0'
      have hdHead : ∃ d0 d', d = d0 :: d' ∧ isJsWhitespace d0 = true := by
        cases hdc : d with
        | nil => exact absurd hdc hdcons
        | cons d0 d' =>
          refine ⟨d0, d', rfl, ?_⟩
          have := dropWhile_eq_nil_or_head (fun x => !isJsWhitespace x) rest
          rw [← hd] at this
          rcases this with hnil | ⟨e, es, hes, hpe⟩
          · rw [hdc] at hnil; cases hnil
          · rw [hdc] at hes
            have he : e = d0 := by
              have := hes
              injection this with h1 _
              exact h1.symm
            rw [← he]
            simpa using hpe
      rcases hdHead with ⟨d0, d', hdc, hd0ws⟩
      have hwne : ∃ w0 w'', w = w0 :: w'' ∧ isJsWhitespace w0 = true := by
        refine ⟨d0, d'.takeWhile isJsWhitespace, ?_, hd0ws⟩
        rw [hw, hdc]
        simp [List.takeWhile_cons, hd0ws]
      rcases hwne with ⟨w0, w'', hwc, hw0ws⟩
      have hw''Ws : ∀ x ∈ w'', isJsWhitespace x = true := by
        intro x hx
        exact hwWs x (by rw [hwc]; exact List.mem_cons_of_mem w0 hx)
      have hmNonNil : ∃ x ∈ m, isJsWhitespace x = false := by
        exact ⟨m0, by rw [hm0']; exact List.mem_cons_self m0 m', hm0ns⟩
      -- decompose the list
      have hld : c :: rest = ((c :: t) ++ w) ++ m := by
        rw [← hrest, ← hdm]
        simp
      -- length bound for the recursive call
      have hmlen : m.length ≤ n := by
        have h1 : (c :: rest).length = (((c :: t) ++ w) ++ m).length := by
          rw [← hld]
        rw [hwc] at h1
        simp [List.length_append] at h1 hlen
        omega
      have hihm : collapseWsGo false (trimRight m) = unwords (wordsGo [] m) := by
        apply ih m hmlen
        exact Or.inr ⟨m0, m', hm0', hm0ns⟩
      -- left-hand side
      rw [hld]
      rw [trimRight_append_keep _ _ hmNonNil]
      rw [List.append_assoc]
      rw [collapseWsGo_nonws_front (c :: t) _ hctNon]
      have htrm : ∃ m'', trimRight m = m0 :: m'' := by
        rw [hm0']
        exact trimRight_cons_head m0 m' (trimRight_ne_nil m0 m' hm0ns)
      rcases htrm with ⟨m'', htrm⟩
      have hcw : collapseWsGo false (w ++ trimRight m) =
          ' ' :: collapseWsGo false (trimRight m) := by
        rw [hwc, List.cons_append]
        have : collapseWsGo false (w0 :: (w'' ++ trimRight m)) =
            ' ' :: collapseWsGo true (w'' ++ trimRight m) := by
          simp [collapseWsGo, hw0ws]
        rw [this, collapseWsGo_true_allws w'' _ hw''Ws]
        congr 1
        apply collapseWsGo_true_eq_false
        intro e es hes
        rw [htrm] at hes
        injection hes with h1 _
        rw [h1] at hm0ns
        exact hm0ns
      rw [hcw, hihm]
      -- right-hand side
      have hwords : wordsGo [] (((c :: t) ++ w) ++ m) =
          (c :: t) :: wordsGo [] m := by
        rw [List.append_assoc]
        rw [wordsGo_nonws_accum (c :: t) hctNon [] (w ++ m), List.append_nil]
        rw [hwc, List.cons_append]
        rw [wordsGo_acc_ws_cons _ (by simp) w0 _ hw0ws]
        rw [List.reverse_reverse]
        congr 1
        rw [wordsGo_nil_dropWhile (w'' ++ m)]
        rw [dropWhile_append_all _ _ _ hw''Ws]
        have : m.dropWhile isJsWhitespace = m := by
          rw [hm0']
          simp [List.dropWhile_cons, hm0ns]
        rw [this]
      rw [hwords]
      have hqne : wordsGo [] m ≠ [] := by
        rw [hm0']
        have : wordsGo [] (m0 :: m') = wordsGo [m0] m' := by
          simp [wordsGo, hm0ns]
        rw [this]
        exact wordsGo_ne_nil m' m0 []
      cases hq : wordsGo [] m with
      | nil => exact absurd hq hqne
      | cons q qs => rfl

/-- `normalizeText` depends only on the maximal non-whitespace runs. -/
theorem normalizeText_eq_unwords (s : String) :
    normalizeText s = String.mk (unwords (wsWords s)) := by
  unfold normalizeText wsWords collapseWs jsTrimList
  congr 1
  rw [wordsGo_nil_dropWhile s.data]
  apply collapse_trim_eq_unwords_aux (s.data.dropWhile isJsWhitespace).length _
    le_rfl
  exact dropWhile_eq_nil_or_head isJsWhitespace s.data

/-! ### C5: derivation is total, deterministic and
whitespace-normalisation invariant -/

/-- C5: for every digest function and voice, `generateCacheKey` is a total
function (the empty text is valid: its key is the digest of the voice
alone), and any two texts with the same maximal non-whitespace runs — that
is, texts differing only in whitespace run-length or in leading/trailing
whitespace — derive the same key; in particular
`derive("a  b", v) = derive("a b", v) = derive(" a b ", v)`. -/
theorem generateCacheKey_ws_invariant (md5hex : String → String)
    (v t1 t2 : String)
    (hwords : wsWords t1 = wsWords t2) :
    generateCacheKey md5hex t1 v = generateCacheKey md5hex t2 v ∧
    generateCacheKey md5hex textAB2 v = generateCacheKey md5hex textAB1 v ∧
    generateCacheKey md5hex textAB1 v = generateCacheKey md5hex textABsp v ∧
    generateCacheKey md5hex emptyText v = md5hex v := by
  have key : ∀ s1 s2 : String, wsWords s1 = wsWords s2 →
      generateCacheKey md5hex s1 v = generateCacheKey md5hex s2 v := by
    intro s1 s2 hs
    unfold generateCacheKey
    rw [normalizeText_eq_unwords s1, normalizeText_eq_unwords s2, hs]
  refine ⟨key t1 t2 hwords, key textAB2 textAB1 (by decide),
    key textAB1 textABsp (by decide), ?_⟩
  unfold generateCacheKey
  have h0 : normalizeText emptyText = emptyText := by decide
  rw [h0]
  rfl

/-- Closed instance of the C5 theorem: the three concrete texts of the
property derive one key under the identity digest and voice `x`. -/
theorem generateCacheKey_ws_invariant_witness :
    generateCacheKey hId textAB2 vX = generateCacheKey hId textAB1 vX ∧
    generateCacheKey hId textAB2 vX = generateCacheKey hId textAB1 vX ∧
    generateCacheKey hId textAB1 vX = generateCacheKey hId textABsp vX ∧
    generateCacheKey hId emptyText vX = hId vX :=
  generateCacheKey_ws_invariant hId vX textAB2 textAB1 (by decide)

/-! ### C10: keys collide whenever the concatenations coincide -/

/-- C10: the cache key is the digest of the normalised text directly
concatenated with the voice, so whenever
`normalize(t1) ++ v1 = normalize(t2) ++ v2` the two pairs share one key:
distinct texts under distinct voices can share one cache entry. -/
theorem generateCacheKey_concat_collision (md5hex : String → String)
    (t1 v1 t2 v2 : String)
    (hcat : normalizeText t1 ++ v1 = normalizeText t2 ++ v2) :
    generateCacheKey md5hex t1 v1 = generateCacheKey md5hex t2 v2 := by
  unfold generateCacheKey
  rw [hcat]

/-- Closed instance of the C10 theorem at the colliding pairs
`("ab", "c")` and `("a", "bc")`. -/
theorem generateCacheKey_concat_collision_witness :
    normalizeText tColl1 ++ vColl1 = normalizeText tColl2 ++ vColl2 ∧
    generateCacheKey hId tColl1 vColl1 = generateCacheKey hId tColl2 vColl2 :=
  ⟨by decide, generateCacheKey_concat_collision hId tColl1 vColl1 tColl2
    vColl2 (by decide)⟩

/-! ### C1: eviction by book never reaches current-layout entries -/

/-- C1 fails on the code: the eviction handler enumerates only the
top-level `*.mp3` files (the legacy flat layout), so a current-layout
(nested) entry belonging to book `bookB` — exactly what `cacheAudio`
writes — survives `evict({book: bookB})` untouched, and the returned count
is `0` even though an entry of that book exists.  Evaluation of the
handler at that state. -/
theorem clearCache_misses_nested_book_entries :
    (clearCache (some bookB) none stNestedOnly).2.1 = 0 ∧
    (clearCache (some bookB) none stNestedOnly).1 = stNestedOnly ∧
    stNestedOnly.nested.map NestedFile.bookKey = [bookB] := by
  decide

/-! ### C6: the pipeline scenario's cache check -/

/-- C6 as stated is false: the check endpoint produces one result per
input text, so for the three scenario chunks it reports a total of `3`
(with `0` cached against the empty store), not `2`. -/
theorem checkPOST_scenario_total_three_cx :
    (checkPOST hId emptyFS scenarioTexts voiceV (some bookKeyB1)).totalCount
      = 3 ∧
    ¬ (checkPOST hId emptyFS scenarioTexts voiceV (some bookKeyB1)).totalCount
      = 2 ∧
    (checkPOST hId emptyFS scenarioTexts voiceV (some bookKeyB1)).cachedCount
      = 0 := by
  decide

/-- C6 (amended): for the scenario chunks
`["Hello world", "Hello   world", "Goodbye"]` and one voice, the bulk
cache check against an empty store reports `0` cached out of a total of
`3` — one result per text, no deduplication at the check level — while
whitespace normalisation gives the first two texts one shared cache key,
so the set of distinct normalised texts (hence of distinct cache entries a
full pass would create) has size `2`. -/
theorem checkPOST_scenario_amended (md5hex : String → String) :
    (checkPOST md5hex emptyFS scenarioTexts voiceV (some bookKeyB1)).totalCount
      = 3 ∧
    (checkPOST md5hex emptyFS scenarioTexts voiceV (some bookKeyB1)).cachedCount
      = 0 ∧
    generateCacheKey md5hex tHelloWorld voiceV
      = generateCacheKey md5hex tHelloWs voiceV ∧
    (scenarioTexts.map normalizeText).dedup = [tHelloWorld, tGoodbye] := by
  refine ⟨?_, ?_, ?_, by decide⟩
  · simp [checkPOST, scenarioTexts]
  · simp only [checkPOST, scenarioTexts, isCachedCheck, emptyFS]
    cases hbk : (if isTruthy (some bookKeyB1) = true
        then some (extractBookHash bookKeyB1) else none) <;>
      simp [hbk]
  · unfold generateCacheKey
    have hnorm : normalizeText tHelloWorld = normalizeText tHelloWs := by
      decide
    rw [hnorm]

/-! ### C3: progress reporting in the synthesizing loop -/

/-- C3 as stated is false: within a single batch (here `["a", "b"]`, one
batch since the batch width is five) whose two requests both succeed, the
progress callback fires twice — once per chunk — not exactly once per
batch. -/
theorem processBatch_progress_per_chunk_cx :
    toBatches twoTexts = [twoTexts] ∧
    (processBatch allOk twoTexts.length 0 twoTexts).2.length = 2 ∧
    ¬ (processBatch allOk twoTexts.length 0 twoTexts).2.length = 1 := by
  decide

theorem updateProgress_percentage_formula (st : PCState)
    (current total : Nat) (msg : String) (err : Option String) :
    (updateProgress st current total msg err).percentage =
      (if total = 0 then (0 : ℤ)
       else round ((100 * (current : ℚ)) / (total : ℚ))) := by
  by_cases h : total = 0
  · simp [updateProgress, h]
  · have hpos : 0 < total := Nat.pos_of_ne_zero h
    simp only [updateProgress, if_pos hpos, if_neg h]
    congr 1
    ring

theorem pctFormula_updateProgress (st : PCState) (current total : Nat)
    (msg : String) (err : Option String) :
    pctFormula (updateProgress st current total msg err)
      = (updateProgress st current total msg err).percentage := by
  show (if total = 0 then (0 : ℤ)
      else round ((100 * (current : ℚ)) / (total : ℚ))) = _
  rw [updateProgress_percentage_formula]

theorem processBatch_counts (outcome : String → Bool) (total : Nat) :
    ∀ (completed : Nat) (batch : List String),
    (processBatch outcome total completed batch).2.length
      = (batch.filter outcome).length ∧
    (processBatch outcome total completed batch).1
      = completed + (batch.filter outcome).length := by
  intro completed batch
  induction batch generalizing completed with
  | nil => simp [processBatch]
  | cons a as ih =>
    by_cases ha : outcome a = true
    · have h1 := (ih (completed + 1)).1
      have h2 := (ih (completed + 1)).2
      simp [processBatch, ha, List.filter_cons, h1, h2]
      omega
    · have ha' : outcome a = false := by simpa using ha
      have h1 := (ih completed).1
      have h2 := (ih completed).2
      simp [processBatch, ha', List.filter_cons, h1, h2]

theorem processBatch_percentages (outcome : String → Bool) (total : Nat) :
    ∀ (completed : Nat) (batch : List String),
    (processBatch outcome total completed batch).2.map
        PreCacheProgress.percentage
      = (processBatch outcome total completed batch).2.map pctFormula := by
  intro completed batch
  induction batch generalizing completed with
  | nil => rfl
  | cons a as ih =>
    by_cases ha : outcome a = true
    · simp only [processBatch, ha, if_pos, List.map_cons]
      rw [ih (completed + 1), pctFormula_updateProgress]
    · have ha' : outcome a = false := by simpa using ha
      simp only [processBatch, ha', Bool.false_eq_true, if_false]
      exact ih completed

theorem processBatches_count (outcome : String → Bool) (total : Nat) :
    ∀ (completed : Nat) (batches : List (List String)),
    (processBatches outcome total completed batches).2.length
      = (batches.flatten.filter outcome).length := by
  intro completed batches
  induction batches generalizing completed with
  | nil => simp [processBatches]
  | cons b bs ih =>
    simp only [processBatches, List.flatten_cons, List.filter_append,
      List.length_append]
    rw [(processBatch_counts outcome total completed b).1,
      ih (processBatch outcome total completed b).1]

/-- C3 (amended): during the synthesizing phase the progress callback is
invoked exactly once per successfully synthesized chunk — as each chunk's
request resolves, not once per batch; failed chunks trigger no callback —
so a batch emits as many reports as it has successes and the whole batched
loop emits one report per success overall, and every reported progress
carries percentage `round(current * 100 / total)`, with `0` whenever
`total` is `0`. -/
theorem progress_once_per_successful_chunk (outcome : String → Bool)
    (total completed : Nat) (batch : List String)
    (batches : List (List String)) :
    (processBatch outcome total completed batch).2.length
      = (batch.filter outcome).length ∧
    (processBatch outcome total completed batch).1
      = completed + (batch.filter outcome).length ∧
    (processBatch outcome total completed batch).2.map
        PreCacheProgress.percentage
      = (processBatch outcome total completed batch).2.map pctFormula ∧
    (processBatches outcome total completed batches).2.length
      = (batches.flatten.filter outcome).length :=
  ⟨(processBatch_counts outcome total completed batch).1,
    (processBatch_counts outcome total completed batch).2,
    processBatch_percentages outcome total completed batch,
    processBatches_count outcome total completed batches⟩

/-! ### C7: bounded concurrency batches -/

theorem toBatchesAux_join {α : Type} :
    ∀ (fuel : Nat) (l : List α), l.length ≤ fuel →
    (toBatchesAux fuel l).flatten = l := by
  intro fuel
  induction fuel with
  | zero =>
    intro l hl
    have hnil : l = [] := List.length_eq_zero.mp (Nat.le_zero.mp hl)
    subst hnil
    rfl
  | succ n ih =>
    intro l hl
    cases l with
    | nil => rfl
    | cons x xs =>
      simp only [toBatchesAux, List.flatten_cons]
      rw [ih ((x :: xs).drop BATCH_SIZE) (by simp [BATCH_SIZE] at hl ⊢; omega)]
      exact List.take_append_drop BATCH_SIZE (x :: xs)

theorem toBatchesAux_mem {α : Type} :
    ∀ (fuel : Nat) (l : List α) (b : List α), b ∈ toBatchesAux fuel l →
    b ≠ [] ∧ b.length ≤ BATCH_SIZE := by
  intro fuel
  induction fuel with
  | zero =>
    intro l b hb
    simp [toBatchesAux] at hb
  | succ n ih =>
    intro l b hb
    cases l with
    | nil => simp [toBatchesAux] at hb
    | cons x xs =>
      simp only [toBatchesAux, List.mem_cons] at hb
      rcases hb with rfl | hb
      · refine ⟨?_, List.length_take_le BATCH_SIZE (x :: xs)⟩
        simp [BATCH_SIZE]
      · exact ih _ _ hb

/-- C7: the uncached chunks are processed in consecutive batches — the
batch width is the constant `5`, every batch is nonempty with at most
five chunks, and the concatenation of the batches in order is exactly the
uncached list, so at most five synthesis requests are dispatched
concurrently and batches follow the order the uncached subset was
produced. -/
theorem toBatches_bounded_and_ordered (l : List String) :
    BATCH_SIZE = 5 ∧
    (∀ b ∈ toBatches l, b ≠ [] ∧ b.length ≤ BATCH_SIZE) ∧
    (toBatches l).flatten = l :=
  ⟨rfl, fun b hb => toBatchesAux_mem l.length l b hb,
    toBatchesAux_join l.length l le_rfl⟩

/-- Closed instance of the C7 theorem at a seven-chunk list: the first
batch is the first five chunks, and the batches join back to the list. -/
theorem toBatches_bounded_and_ordered_witness :
    (sevenTexts.take BATCH_SIZE ≠ [] ∧
      (sevenTexts.take BATCH_SIZE).length ≤ BATCH_SIZE) ∧
    (toBatches sevenTexts).flatten = sevenTexts :=
  ⟨(toBatches_bounded_and_ordered sevenTexts).2.1
      (sevenTexts.take BATCH_SIZE) (by decide),
    (toBatches_bounded_and_ordered sevenTexts).2.2⟩

end Readest
